import Mathlib

set_option maxRecDepth 8000

/-!
# Verification of the chrome-extension-server matching core

Shallow embedding of the matching engine in `src/main.go`:
whitespace normalisation (`removeWhitespace`), URL equivalence
(`isEquivalent`), the chunking orchestration (`chunk`, `lcss_chunked`)
and the per-candidate match decision of `handleCofacts`.

The longest-common-substring primitive (`lcss.LongestCommonSubstring`,
from the external `go-lcss` library whose implementation is not part of
the sources) and Go's `net/url` parsing are modelled from the spec.

Go code that does not terminate (the `chunk` loop with `chunkSize = 0`)
or panics (URL parse failure, integer division by zero) is embedded with
`Option`/`Except`: `none` / `.error` marks the divergence or panic.
-/

namespace ChromeExtServer

/-- Picks the longer of two byte runs, keeping `best` on ties; this is the
`if len(current) > best_len` update pattern used by both the modelled
primitive and the chunked orchestrator in `src/main.go`. -/
def pickLonger {α : Type} (best s : List α) : List α :=
  if best.length < s.length then s else best

/-- All contiguous substrings (infixes) of `a`, enumerated by start
position and then by length. -/
def allInfixes {α : Type} (a : List α) : List (List α) :=
  (a.tails.map List.inits).flatten

/-- The infixes of `a` that also occur contiguously in `b`. -/
def commonSubstrings {α : Type} [DecidableEq α] (a b : List α) : List (List α) :=
  (allInfixes a).filter (fun s => decide (s <:+: b))

/-- Modelled from the spec: `lcss.LongestCommonSubstring` of the external
`go-lcss` library (its implementation is not among the sources; §4.3 of the
spec gives the contract). Returns a longest contiguous run of bytes
occurring in both inputs, the first such run in `a`'s enumeration order on
ties; empty when the inputs share no byte. -/
def longestCommonSubstring {α : Type} [DecidableEq α] (a b : List α) : List α :=
  (commonSubstrings a b).foldl pickLonger []

theorem mem_allInfixes {α : Type} {s a : List α} :
    s ∈ allInfixes a ↔ s <:+: a := by
  unfold allInfixes
  rw [List.infix_iff_prefix_suffix]
  constructor
  · intro h
    rcases List.mem_flatten.mp h with ⟨l, hl, hs⟩
    rcases List.mem_map.mp hl with ⟨t, ht, rfl⟩
    exact ⟨t, (List.mem_inits _ _).mp hs, (List.mem_tails _ _).mp ht⟩
  · rintro ⟨t, hpre, hsuf⟩
    exact List.mem_flatten.mpr ⟨t.inits, List.mem_map.mpr ⟨t, (List.mem_tails _ _).mpr hsuf, rfl⟩,
      (List.mem_inits _ _).mpr hpre⟩

theorem foldl_pickLonger_init_le {α : Type} (cs : List (List α)) (best : List α) :
    best.length ≤ (cs.foldl pickLonger best).length := by
  induction cs generalizing best with
  | nil => simp
  | cons c cs ih =>
    refine le_trans ?_ (ih (pickLonger best c))
    unfold pickLonger
    split <;> omega

theorem foldl_pickLonger_mem_le {α : Type} {cs : List (List α)} {s : List α}
    (best : List α) (hs : s ∈ cs) :
    s.length ≤ (cs.foldl pickLonger best).length := by
  induction cs generalizing best with
  | nil => simp at hs
  | cons c cs ih =>
    rcases List.mem_cons.mp hs with rfl | hs
    · refine le_trans ?_ (foldl_pickLonger_init_le cs (pickLonger best s))
      unfold pickLonger
      split <;> omega
    · exact ih (pickLonger best c) hs

theorem foldl_pickLonger_eq_or {α : Type} (cs : List (List α)) (best : List α) :
    cs.foldl pickLonger best = best ∨ cs.foldl pickLonger best ∈ cs := by
  induction cs generalizing best with
  | nil => left; rfl
  | cons c cs ih =>
    rcases ih (pickLonger best c) with h | h
    · rw [List.foldl_cons, h]
      unfold pickLonger
      split
      · right; exact List.mem_cons_self _ _
      · left; rfl
    · right
      exact List.mem_cons_of_mem _ h

theorem longestCommonSubstring_infix_left {α : Type} [DecidableEq α] (a b : List α) :
    longestCommonSubstring a b <:+: a := by
  unfold longestCommonSubstring
  rcases foldl_pickLonger_eq_or (commonSubstrings a b) [] with h | h
  · rw [h]; exact List.nil_infix
  · exact mem_allInfixes.mp (List.mem_filter.mp h).1

theorem longestCommonSubstring_infix_right {α : Type} [DecidableEq α] (a b : List α) :
    longestCommonSubstring a b <:+: b := by
  unfold longestCommonSubstring
  rcases foldl_pickLonger_eq_or (commonSubstrings a b) [] with h | h
  · rw [h]; exact List.nil_infix
  · exact of_decide_eq_true (List.mem_filter.mp h).2

theorem longestCommonSubstring_maximal {α : Type} [DecidableEq α]
    {a b s : List α} (hsa : s <:+: a) (hsb : s <:+: b) :
    s.length ≤ (longestCommonSubstring a b).length := by
  unfold longestCommonSubstring
  exact foldl_pickLonger_mem_le []
    (List.mem_filter.mpr ⟨mem_allInfixes.mpr hsa, decide_eq_true hsb⟩)

theorem longestCommonSubstring_nil_left {α : Type} [DecidableEq α] (b : List α) :
    longestCommonSubstring ([] : List α) b = [] :=
  List.eq_nil_of_infix_nil (longestCommonSubstring_infix_left [] b)

/-- The loop body of `chunk` in `src/main.go:204` for a positive chunk
size, with an explicit structural-recursion bound: slices
`s[i:i+chunkSize]` for `i = 0, chunkSize, 2*chunkSize, ...`, the final
slice clipped to `len(s)`. The bound is immaterial whenever it is at
least `s.length` (see `chunkGoFuel_congr`). -/
def chunkGoFuel {α : Type} (k : Nat) : Nat → List α → List (List α)
  | _, [] => []
  | 0, _ :: _ => []
  | fuel + 1, x :: xs => (x :: xs).take k :: chunkGoFuel k fuel ((x :: xs).drop k)

/-- The chunk list produced by the `chunk` loop for a positive chunk size. -/
def chunkPos {α : Type} (s : List α) (k : Nat) : List (List α) :=
  chunkGoFuel k s.length s

/-- `chunk` from `src/main.go:204`. An empty `s` returns no chunks before
the loop runs. With `chunkSize = 0` and a non-empty `s` the Go loop
(`i += chunkSize`) never advances and does not terminate, which the
embedding marks with `none`. Negative chunk sizes cannot reach this
function (`lcss_chunked` passes `2*len(a) ≥ 0`). -/
def chunk {α : Type} (s : List α) (chunkSize : Nat) : Option (List (List α)) :=
  if s.length = 0 then some []
  else if chunkSize = 0 then none
  else some (chunkPos s chunkSize)

theorem chunkGoFuel_congr {α : Type} {k : Nat} (hk : 0 < k) :
    ∀ (fuel fuel2 : Nat) (s : List α), s.length ≤ fuel → s.length ≤ fuel2 →
      chunkGoFuel k fuel s = chunkGoFuel k fuel2 s := by
  intro fuel
  induction fuel with
  | zero =>
    intro fuel2 s h1 h2
    rw [Nat.le_zero, List.length_eq_zero] at h1
    subst h1
    cases fuel2 <;> rfl
  | succ fuel ih =>
    intro fuel2 s h1 h2
    match s with
    | [] => cases fuel2 <;> rfl
    | x :: xs =>
      cases fuel2 with
      | zero => simp at h2
      | succ fuel2 =>
        simp only [chunkGoFuel]
        congr 1
        apply ih
        · rw [List.length_drop]
          simp only [List.length_cons] at h1 ⊢
          omega
        · rw [List.length_drop]
          simp only [List.length_cons] at h2 ⊢
          omega

theorem chunkPos_nil {α : Type} (k : Nat) : chunkPos ([] : List α) k = [] := rfl

theorem chunkPos_nonempty_pos {α : Type} {s : List α} {k : Nat}
    (hs : s ≠ []) (hk : 0 < k) :
    chunkPos s k = s.take k :: chunkPos (s.drop k) k := by
  match s with
  | x :: xs =>
    show chunkGoFuel k ((x :: xs).length) (x :: xs) = _
    simp only [List.length_cons, chunkGoFuel]
    congr 1
    apply chunkGoFuel_congr hk
    · rw [List.length_drop]
      simp only [List.length_cons]
      omega
    · exact le_refl _

theorem chunk_of_pos {α : Type} (s : List α) {k : Nat} (hk : 0 < k) :
    chunk s k = some (chunkPos s k) := by
  unfold chunk
  split
  · rename_i h
    rw [List.length_eq_zero] at h
    subst h
    rfl
  · rw [if_neg (by omega)]

theorem infix_of_mem_chunkGoFuel {α : Type} {k fuel : Nat} {s c : List α}
    (hc : c ∈ chunkGoFuel k fuel s) : c <:+: s := by
  induction fuel generalizing s with
  | zero =>
    match s with
    | [] => simp [chunkGoFuel] at hc
    | _ :: _ => simp [chunkGoFuel] at hc
  | succ fuel ih =>
    match s with
    | [] => simp [chunkGoFuel] at hc
    | x :: xs =>
      simp only [chunkGoFuel] at hc
      rcases List.mem_cons.mp hc with rfl | hc
      · exact (List.take_prefix _ _).isInfix
      · exact (ih hc).trans (List.drop_suffix _ _).isInfix

theorem infix_of_mem_chunkPos {α : Type} {s c : List α} {k : Nat}
    (hc : c ∈ chunkPos s k) : c <:+: s :=
  infix_of_mem_chunkGoFuel hc

theorem chunkPos_mem {α : Type} {s : List α} {k : Nat} (hk : 0 < k) :
    ∀ j, j * k < s.length → (s.drop (j * k)).take k ∈ chunkPos s k := by
  intro j
  induction j generalizing s with
  | zero =>
    intro hj
    simp only [Nat.zero_mul] at hj ⊢
    have hs : s ≠ [] := by
      intro h; subst h; simp at hj
    rw [chunkPos_nonempty_pos hs hk, List.drop_zero]
    exact List.mem_cons_self _ _
  | succ j ih =>
    intro hj
    have hmul : (j + 1) * k = j * k + k := by ring
    have hs : s ≠ [] := by
      intro h; subst h; simp at hj
    rw [chunkPos_nonempty_pos hs hk]
    refine List.mem_cons_of_mem _ ?_
    have hdrop : (s.drop k).drop (j * k) = s.drop ((j + 1) * k) := by
      rw [List.drop_drop]
      congr 1
      omega
    have hlen : j * k < (s.drop k).length := by
      rw [List.length_drop]
      omega
    have := ih (s := s.drop k) hlen
    rwa [hdrop] at this

/-- The accumulation loops of `lcss_chunked` (`src/main.go:246` and
`:255`): run the primitive on `a` against each chunk, keeping the longest
result seen so far. -/
def bestLcss {α : Type} [DecidableEq α] (a : List α) (cs : List (List α))
    (best : List α) : List α :=
  cs.foldl (fun best c => pickLonger best (longestCommonSubstring a c)) best

theorem bestLcss_eq_foldl_map {α : Type} [DecidableEq α] (a : List α)
    (cs : List (List α)) (best : List α) :
    bestLcss a cs best = (cs.map (longestCommonSubstring a)).foldl pickLonger best := by
  rw [bestLcss, List.foldl_map]

theorem bestLcss_init_le {α : Type} [DecidableEq α] (a : List α)
    (cs : List (List α)) (best : List α) :
    best.length ≤ (bestLcss a cs best).length := by
  rw [bestLcss_eq_foldl_map]
  exact foldl_pickLonger_init_le _ _

theorem bestLcss_mem_le {α : Type} [DecidableEq α] {a c : List α}
    {cs : List (List α)} (best : List α) (hc : c ∈ cs) :
    (longestCommonSubstring a c).length ≤ (bestLcss a cs best).length := by
  rw [bestLcss_eq_foldl_map]
  exact foldl_pickLonger_mem_le best (List.mem_map_of_mem _ hc)

theorem bestLcss_eq_or {α : Type} [DecidableEq α] (a : List α)
    (cs : List (List α)) (best : List α) :
    bestLcss a cs best = best ∨
      ∃ c ∈ cs, bestLcss a cs best = longestCommonSubstring a c := by
  rw [bestLcss_eq_foldl_map]
  rcases foldl_pickLonger_eq_or (cs.map (longestCommonSubstring a)) best with h | h
  · exact Or.inl h
  · rcases List.mem_map.mp h with ⟨c, hc, hc2⟩
    exact Or.inr ⟨c, hc, hc2.symm⟩

/-- `lcss_chunked` from `src/main.go:221`. The initial argument swap of
the Go source (a single recursive call that immediately falls through to
the body) is inlined via `lcss_chunkedAux`. `none` marks divergence:
when the chunked path is taken with `len(a) = 0`, `chunk` is called with
chunk size `0` on a non-empty slice and the Go loop never terminates. -/
def lcss_chunkedAux {α : Type} [DecidableEq α] (a b : List α) : Option (List α) :=
  if a.length * 6 > b.length then some (longestCommonSubstring a b)
  else
    match chunk b (2 * a.length), chunk (b.drop a.length) (2 * a.length) with
    | some cs1, some cs2 => some (bestLcss a cs2 (bestLcss a cs1 []))
    | _, _ => none

def lcss_chunked {α : Type} [DecidableEq α] (a b : List α) : Option (List α) :=
  if a.length > b.length then lcss_chunkedAux b a else lcss_chunkedAux a b

theorem infix_of_mem_chunk {α : Type} {s c : List α} {k : Nat} {cs : List (List α)}
    (h : chunk s k = some cs) (hc : c ∈ cs) : c <:+: s := by
  unfold chunk at h
  split at h
  · cases h; simp at hc
  · split at h
    · cases h
    · cases h
      exact infix_of_mem_chunkPos hc

theorem infix_of_lcss_chunkedAux {α : Type} [DecidableEq α] {a b r : List α}
    (h : lcss_chunkedAux a b = some r) : r <:+: a ∧ r <:+: b := by
  unfold lcss_chunkedAux at h
  split at h
  · cases h
    exact ⟨longestCommonSubstring_infix_left a b, longestCommonSubstring_infix_right a b⟩
  · rcases hc1 : chunk b (2 * a.length) with _ | cs1 <;>
      rcases hc2 : chunk (b.drop a.length) (2 * a.length) with _ | cs2 <;>
      rw [hc1, hc2] at h <;> try cases h
    rcases bestLcss_eq_or a cs2 (bestLcss a cs1 []) with heq | ⟨c, hc, heq⟩
    · rcases bestLcss_eq_or a cs1 [] with heq2 | ⟨c, hc, heq2⟩
      · rw [heq, heq2]
        exact ⟨List.nil_infix, List.nil_infix⟩
      · rw [heq, heq2]
        exact ⟨longestCommonSubstring_infix_left a c,
          (longestCommonSubstring_infix_right a c).trans (infix_of_mem_chunk hc1 hc)⟩
    · rw [heq]
      exact ⟨longestCommonSubstring_infix_left a c,
        (longestCommonSubstring_infix_right a c).trans
          ((infix_of_mem_chunk hc2 hc).trans (List.drop_suffix _ _).isInfix)⟩

/-- A run `s` sitting at position `u.length` of `b` is contained in the
window `b[start : start+W]` as soon as the window covers it. -/
theorem infix_drop_take {α : Type} {b u s v : List α} (hb : u ++ (s ++ v) = b)
    {start W : Nat} (h1 : start ≤ u.length) (h2 : u.length + s.length ≤ start + W) :
    s <:+: (b.drop start).take W := by
  subst hb
  rw [List.drop_append_eq_append_drop]
  rw [show start - u.length = 0 by omega, List.drop_zero]
  rw [List.take_append_eq_append_take]
  have hW : (u.drop start).length ≤ W := by
    rw [List.length_drop]; omega
  rw [List.take_of_length_le hW]
  rw [List.take_append_eq_append_take]
  have hW2 : s.length ≤ W - (u.drop start).length := by
    rw [List.length_drop]; omega
  rw [List.take_of_length_le hW2]
  exact ⟨u.drop start, v.take _, List.append_assoc _ _ _⟩

/-- Any non-empty common run of `a` and `b` is wholly inside a window of
pass 1 (even window index) or of the offset pass 2 (odd window index), so
the two-pass best is at least as long as the run. -/
theorem common_run_le_best {α : Type} [DecidableEq α] {a b s : List α}
    (hn : 0 < a.length) (hsa : s <:+: a) (hsb : s <:+: b) (hsnil : s ≠ []) :
    s.length ≤ (bestLcss a (chunkPos (b.drop a.length) (2 * a.length))
      (bestLcss a (chunkPos b (2 * a.length)) [])).length := by
  have hk : 0 < 2 * a.length := by omega
  obtain ⟨u, v, hb⟩ := hsb
  rw [List.append_assoc] at hb
  have hs1 : 1 ≤ s.length := List.length_pos.mpr hsnil
  have hslen : s.length ≤ a.length := hsa.length_le
  have hblen : u.length + (s.length + v.length) = b.length := by
    rw [← hb]
    simp [List.length_append]
  obtain ⟨m, hm⟩ : ∃ m, m = u.length / a.length := ⟨_, rfl⟩
  obtain ⟨q, hq⟩ : ∃ q, q = a.length * m := ⟨_, rfl⟩
  have hdiv : q + u.length % a.length = u.length := by
    rw [hq, hm]
    exact Nat.div_add_mod u.length a.length
  have hmod : u.length % a.length < a.length := Nat.mod_lt _ hn
  rcases Nat.mod_two_eq_zero_or_one m with hpar | hpar
  · -- even window index: pass 1 covers the run
    obtain ⟨j, hj⟩ : ∃ j, m = 2 * j := ⟨m / 2, by omega⟩
    have hstart : j * (2 * a.length) = q := by
      rw [hq, hj]; ring
    have hwin_mem : (b.drop (j * (2 * a.length))).take (2 * a.length) ∈
        chunkPos b (2 * a.length) :=
      chunkPos_mem hk j (by omega)
    have hsw : s <:+: (b.drop (j * (2 * a.length))).take (2 * a.length) :=
      infix_drop_take hb (by omega) (by omega)
    calc s.length
        ≤ (longestCommonSubstring a
            ((b.drop (j * (2 * a.length))).take (2 * a.length))).length :=
          longestCommonSubstring_maximal hsa hsw
      _ ≤ (bestLcss a (chunkPos b (2 * a.length)) []).length :=
          bestLcss_mem_le [] hwin_mem
      _ ≤ _ := bestLcss_init_le _ _ _
  · -- odd window index: the offset pass 2 covers the run
    obtain ⟨j, hj⟩ : ∃ j, m = 2 * j + 1 := ⟨m / 2, by omega⟩
    have hstart : j * (2 * a.length) + a.length = q := by
      rw [hq, hj]; ring
    have hb' : u.drop a.length ++ (s ++ v) = b.drop a.length := by
      rw [← hb, List.drop_append_eq_append_drop,
        show a.length - u.length = 0 by omega, List.drop_zero]
    have hwin_mem : ((b.drop a.length).drop (j * (2 * a.length))).take (2 * a.length) ∈
        chunkPos (b.drop a.length) (2 * a.length) :=
      chunkPos_mem hk j (by rw [List.length_drop]; omega)
    have hsw : s <:+: ((b.drop a.length).drop (j * (2 * a.length))).take (2 * a.length) :=
      infix_drop_take hb' (by rw [List.length_drop]; omega)
        (by rw [List.length_drop]; omega)
    calc s.length
        ≤ (longestCommonSubstring a
            (((b.drop a.length).drop (j * (2 * a.length))).take (2 * a.length))).length :=
          longestCommonSubstring_maximal hsa hsw
      _ ≤ _ := bestLcss_mem_le _ hwin_mem

/-- C1 (amended): for non-empty `a` with `|b| ≥ 6·|a|` (the chunked
path), `lcss_chunked a b` terminates and its result has exactly the
length of the unchunked primitive's result on the same pair — the
two-pass windowing (windows of size `2·|a|`, second pass offset by
`|a|`) loses no maximum-length common substring to chunk-boundary
splitting. (The amendment excludes `a = []`, where the code instead
calls `chunk` with chunk size `0` and diverges, see the
counterexample.) -/
theorem lcss_chunked_eq_primitive_length {α : Type} [DecidableEq α] {a b : List α}
    (hne : a ≠ []) (hlen : a.length * 6 ≤ b.length) :
    ∃ r, lcss_chunked a b = some r ∧
      r.length = (longestCommonSubstring a b).length := by
  have hn : 0 < a.length := List.length_pos.mpr hne
  have hk : 0 < 2 * a.length := by omega
  unfold lcss_chunked
  rw [if_neg (by omega)]
  unfold lcss_chunkedAux
  rw [if_neg (by omega), chunk_of_pos b hk, chunk_of_pos (b.drop a.length) hk]
  refine ⟨_, rfl, ?_⟩
  apply Nat.le_antisymm
  · -- the best chunked result is itself a common substring of a and b
    rcases bestLcss_eq_or a (chunkPos (b.drop a.length) (2 * a.length))
        (bestLcss a (chunkPos b (2 * a.length)) []) with heq | ⟨c, hc, heq⟩
    · rcases bestLcss_eq_or a (chunkPos b (2 * a.length)) [] with heq2 | ⟨c, hc, heq2⟩
      · rw [heq, heq2]; simp
      · rw [heq, heq2]
        exact longestCommonSubstring_maximal (longestCommonSubstring_infix_left a c)
          ((longestCommonSubstring_infix_right a c).trans (infix_of_mem_chunkPos hc))
    · rw [heq]
      exact longestCommonSubstring_maximal (longestCommonSubstring_infix_left a c)
        ((longestCommonSubstring_infix_right a c).trans
          ((infix_of_mem_chunkPos hc).trans (List.drop_suffix _ _).isInfix))
  · -- the primitive result is recovered by some window of one of the passes
    by_cases hsnil : longestCommonSubstring a b = []
    · rw [hsnil]
      simp
    · exact common_run_le_best hn (longestCommonSubstring_infix_left a b)
        (longestCommonSubstring_infix_right a b) hsnil

/-! ## URL equivalence (`isEquivalent`, `exist_same_url`) -/

/-- A parsed URL as used by `isEquivalent` in `src/main.go:150`: the
`Host` and `Path` components and the query string decomposed into its
(name, value) pairs in order, which is the information `u.Query()`
exposes (a map from name to the list of values of that name). -/
structure Url where
  host : String
  path : String
  query : List (String × String)
deriving DecidableEq, Repr

/-- `strings.TrimRight(path, "/")` from `src/main.go:162`: removes every
trailing `/` character. -/
def trimRightSlash (s : String) : String :=
  String.mk ((s.toList.reverse.dropWhile (fun c => c == '/')).reverse)

/-- `u.Query()[k]` of Go's `net/url`: all values listed under name `k`,
in order of appearance. -/
def queryValues (q : List (String × String)) (k : String) : List String :=
  (q.filter (fun kv => kv.1 == k)).map (fun kv => kv.2)

/-- The query-containment loop of `isEquivalent` (`src/main.go:167`):
every value of every name in `q1` must appear under the same name in
`q2`; iterating the (name, value) pairs of the parsed map visits exactly
the pairs of the query list. -/
def queryContained (q1 q2 : List (String × String)) : Bool :=
  q1.all (fun kv => (queryValues q2 kv.1).any (fun v2 => kv.2 == v2))

/-- `isEquivalent` from `src/main.go:150`, after both URLs parsed. -/
def isEquivalent (u1 u2 : Url) : Bool :=
  if u1.host ≠ u2.host then false
  else if trimRightSlash u1.path ≠ trimRightSlash u2.path then false
  else queryContained u1.query u2.query

/-- Splits a character list at every occurrence of `c`. -/
def splitOnChar (c : Char) : List Char → List (List Char)
  | [] => [[]]
  | x :: xs =>
    if x = c then [] :: splitOnChar c xs
    else
      match splitOnChar c xs with
      | [] => [[x]]
      | y :: ys => (x :: y) :: ys

/-- Modelled from the spec: the decomposition of a query string into a
mapping from parameter name to its values (§4.2 / §3 of the spec), as
Go's `url.Values` does for `name=value&name=value` query strings: split
on `&`, then each non-empty piece at its first `=`. -/
def parseQuery (cs : List Char) : List (String × String) :=
  if cs.isEmpty then []
  else
    (splitOnChar '&' cs).filterMap (fun piece =>
      if piece.isEmpty then none
      else
        some (String.mk (piece.takeWhile (fun c => c != '=')),
          String.mk ((piece.dropWhile (fun c => c != '=')).drop 1)))

/-- Splits a URL's characters at the first `://`, returning the scheme
part and the remainder. -/
def splitScheme : List Char → Option (List Char × List Char)
  | [] => none
  | ':' :: '/' :: '/' :: rest => some ([], rest)
  | c :: rest =>
    match splitScheme rest with
    | none => none
    | some (scheme, tail) => some (c :: scheme, tail)

/-- Modelled from the spec: Go's `url.Parse` (external `net/url`),
restricted to `scheme://host/path?query` URLs, yielding the `host`,
`path` and query-parameter components the spec names in §3; strings of
any other shape fail to parse. -/
def parseUrl (s : String) : Option Url :=
  match splitScheme s.toList with
  | some (scheme, rest) =>
    if scheme.isEmpty then none
    else
      let host := rest.takeWhile (fun c => c != '/' && c != '?')
      let remains := rest.dropWhile (fun c => c != '/' && c != '?')
      let path := remains.takeWhile (fun c => c != '?')
      let rawq := (remains.dropWhile (fun c => c != '?')).drop 1
      some { host := String.mk host, path := String.mk path, query := parseQuery rawq }
  | none => none

/-- `isEquivalent` on URL strings: Go parses both URLs and panics on a
parse failure (`src/main.go:151`), which the embedding marks `none`. -/
def isEquivalentStr (a b : String) : Option Bool :=
  match parseUrl a, parseUrl b with
  | some u1, some u2 => some (isEquivalent u1 u2)
  | _, _ => none

/-! ## Whitespace normalisation and the match decision -/

/-- `strings.ReplaceAll(s, old, "")` for a single-character `old`:
removes every occurrence of the character. -/
def replaceAllChar (s : String) (c : Char) : String :=
  String.mk (s.toList.filter (fun x => x != c))

/-- `removeWhitespace` from `src/main.go:196`: strips `\n`, `\r`, `\t`
and space, in that order of `ReplaceAll` calls. -/
def removeWhitespace (s : String) : String :=
  replaceAllChar (replaceAllChar (replaceAllChar (replaceAllChar s (Char.ofNat 10))
    (Char.ofNat 13)) (Char.ofNat 9)) ' '

/-- The runtime faults the Go matching code can hit: a `panic` from a URL
that fails to parse, the integer-division-by-zero panic, and
non-termination of the `chunk` loop. -/
inductive GoFailure where
  | malformedUrl : GoFailure
  | divByZero : GoFailure
  | hang : GoFailure
deriving DecidableEq, Repr

instance : DecidableEq (Except GoFailure Bool) := fun a b =>
  match a, b with
  | .ok x, .ok y =>
    if h : x = y then isTrue (by rw [h]) else isFalse (by intro hh; cases hh; exact h rfl)
  | .error x, .error y =>
    if h : x = y then isTrue (by rw [h]) else isFalse (by intro hh; cases hh; exact h rfl)
  | .ok _, .error _ => isFalse (by intro hh; cases hh)
  | .error _, .ok _ => isFalse (by intro hh; cases hh)

/-- The inner loop of `exist_same_url` (`src/main.go:187`): tests one
candidate URL against each request URL, stopping at the first
equivalent one; a parse failure panics. -/
def existInner (u : String) : List String → Option Bool
  | [] => some false
  | r :: rest =>
    match isEquivalentStr u r with
    | none => none
    | some true => some true
    | some false => existInner u rest

/-- `exist_same_url` from `src/main.go:184`, over the candidate's
hyperlink URLs and the URLs found in the request text. -/
def exist_same_url (node_urls request_urls : List String) : Option Bool :=
  match node_urls with
  | [] => some false
  | u :: rest =>
    match existInner u request_urls with
    | none => none
    | some true => some true
    | some false => exist_same_url rest request_urls

/-- The text branch of `handleCofacts` (`src/main.go:319`): normalize
both texts, take the chunked LCSS, then
`(len(common) > 25) || (len(common)*100/len(text) >= 80)`. Go's `||`
short-circuits, so the division by `len(text)` (which panics when the
query text is empty) is only reached when the first disjunct is false;
a diverging `lcss_chunked` never reaches the decision at all. -/
def textMatch (queryText candText : String) : Except GoFailure Bool :=
  match lcss_chunked (removeWhitespace queryText).toList (removeWhitespace candText).toList with
  | none => .error .hang
  | some common =>
    if common.length > 25 then .ok true
    else if queryText.length = 0 then .error .divByZero
    else .ok (decide (common.length * 100 / queryText.length ≥ 80))

/-- The per-candidate decision of `handleCofacts` (`src/main.go:311`):
with URLs in the request text the candidate matches iff one of its
hyperlinks is equivalent to a request URL; otherwise the text-overlap
branch decides. -/
def decideCandidate (queryText : String) (requestUrls : List String)
    (candUrls : List String) (candText : String) : Except GoFailure Bool :=
  if requestUrls.length > 0 then
    match exist_same_url candUrls requestUrls with
    | none => .error .malformedUrl
    | some b => .ok b
  else textMatch queryText candText

/-! ## Supporting lemmas for the claims -/

theorem chunkGoFuel_eq_nil_iff {α : Type} {k fuel : Nat} {s : List α}
    (hfuel : s.length ≤ fuel) : chunkGoFuel k fuel s = [] ↔ s = [] := by
  match s with
  | [] => cases fuel <;> simp [chunkGoFuel]
  | x :: xs =>
    cases fuel with
    | zero => simp at hfuel
    | succ fuel => simp [chunkGoFuel]

theorem chunkGoFuel_flatten {α : Type} {k : Nat} (hk : 0 < k) :
    ∀ (fuel : Nat) (s : List α), s.length ≤ fuel →
      (chunkGoFuel k fuel s).flatten = s := by
  intro fuel
  induction fuel with
  | zero =>
    intro s h
    rw [Nat.le_zero, List.length_eq_zero] at h
    subst h
    rfl
  | succ fuel ih =>
    intro s h
    match s with
    | [] => rfl
    | x :: xs =>
      simp only [chunkGoFuel, List.flatten_cons]
      rw [ih ((x :: xs).drop k) (by rw [List.length_drop]; simp only [List.length_cons] at h ⊢; omega)]
      exact List.take_append_drop _ _

theorem chunkPos_flatten {α : Type} (s : List α) {k : Nat} (hk : 0 < k) :
    (chunkPos s k).flatten = s :=
  chunkGoFuel_flatten hk s.length s (le_refl _)

theorem chunkPos_eq_nil_iff {α : Type} {s : List α} {k : Nat} :
    chunkPos s k = [] ↔ s = [] :=
  chunkGoFuel_eq_nil_iff (le_refl _)

theorem chunkGoFuel_dropLast_length {α : Type} {k : Nat} (hk : 0 < k) :
    ∀ (fuel : Nat) (s : List α), s.length ≤ fuel →
      ∀ c ∈ (chunkGoFuel k fuel s).dropLast, c.length = k := by
  intro fuel
  induction fuel with
  | zero =>
    intro s h c hc
    rw [Nat.le_zero, List.length_eq_zero] at h
    subst h
    simp [chunkGoFuel] at hc
  | succ fuel ih =>
    intro s h c hc
    match s with
    | [] => simp [chunkGoFuel] at hc
    | x :: xs =>
      simp only [chunkGoFuel] at hc
      have hdlen : ((x :: xs).drop k).length ≤ fuel := by
        rw [List.length_drop]
        simp only [List.length_cons] at h ⊢
        omega
      rcases hrest : chunkGoFuel k fuel ((x :: xs).drop k) with _ | ⟨w, ws⟩
      · rw [hrest] at hc
        simp at hc
      · rw [hrest, List.dropLast_cons₂] at hc
        rcases List.mem_cons.mp hc with rfl | hc
        · have hdrop : (x :: xs).drop k ≠ [] := by
            intro hnil
            rw [hnil] at hrest
            rw [show chunkGoFuel k fuel ([] : List α) = [] from by cases fuel <;> rfl] at hrest
            cases hrest
          have hlong : k < (x :: xs).length := by
            by_contra hlt
            exact hdrop (List.drop_eq_nil_of_le (by omega))
          rw [List.length_take]
          omega
        · have := ih ((x :: xs).drop k) hdlen c
          rw [hrest] at this
          exact this hc

theorem chunkPos_dropLast_length {α : Type} {s : List α} {k : Nat} (hk : 0 < k) :
    ∀ c ∈ (chunkPos s k).dropLast, c.length = k :=
  chunkGoFuel_dropLast_length hk s.length s (le_refl _)

theorem chunkGoFuel_getLast?_length {α : Type} {k : Nat} (hk : 0 < k) :
    ∀ (fuel : Nat) (s : List α), s.length ≤ fuel → s ≠ [] →
      ∃ c, (chunkGoFuel k fuel s).getLast? = some c ∧ 1 ≤ c.length ∧ c.length ≤ k := by
  intro fuel
  induction fuel with
  | zero =>
    intro s h hs
    rw [Nat.le_zero, List.length_eq_zero] at h
    exact absurd h hs
  | succ fuel ih =>
    intro s h hs
    match s with
    | x :: xs =>
      simp only [chunkGoFuel]
      have hdlen : ((x :: xs).drop k).length ≤ fuel := by
        rw [List.length_drop]
        simp only [List.length_cons] at h ⊢
        omega
      rcases hrest : chunkGoFuel k fuel ((x :: xs).drop k) with _ | ⟨w, ws⟩
      · refine ⟨(x :: xs).take k, rfl, ?_, ?_⟩
        · rw [List.length_take]
          simp only [List.length_cons]
          omega
        · rw [List.length_take]
          omega
      · have hdrop : (x :: xs).drop k ≠ [] := by
          intro hnil
          rw [hnil] at hrest
          rw [show chunkGoFuel k fuel ([] : List α) = [] from by cases fuel <;> rfl] at hrest
          cases hrest
        obtain ⟨c, hc, h1, h2⟩ := ih ((x :: xs).drop k) hdlen hdrop
        rw [hrest] at hc
        refine ⟨c, ?_, h1, h2⟩
        rw [List.getLast?_cons_cons]
        exact hc

theorem chunkPos_getLast?_length {α : Type} {s : List α} {k : Nat}
    (hk : 0 < k) (hs : s ≠ []) :
    ∃ c, (chunkPos s k).getLast? = some c ∧ 1 ≤ c.length ∧ c.length ≤ k :=
  chunkGoFuel_getLast?_length hk s.length s (le_refl _) hs

theorem lcss_chunked_nil_left {α : Type} [DecidableEq α] (l : List α) :
    lcss_chunked ([] : List α) l = if l.length = 0 then some [] else none := by
  by_cases hl : l.length = 0
  · rw [List.length_eq_zero] at hl
    subst hl
    rfl
  · rw [if_neg hl]
    unfold lcss_chunked lcss_chunkedAux
    rw [if_neg (by simp), if_neg (by simp)]
    have hc : chunk l (2 * ([] : List α).length) = none := by
      unfold chunk
      rw [if_neg hl, if_pos (by simp)]
    rw [hc]

theorem existInner_spec {u : String} {rs : List String} {b : Bool}
    (h : existInner u rs = some b) :
    (b = true ↔ ∃ r ∈ rs, isEquivalentStr u r = some true) := by
  induction rs with
  | nil =>
    cases h
    simp
  | cons r rest ih =>
    rw [existInner] at h
    rcases he : isEquivalentStr u r with _ | eb
    · rw [he] at h; cases h
    · rw [he] at h
      match eb, h with
      | true, h =>
        cases h
        simp only [true_iff]
        exact ⟨r, List.mem_cons_self _ _, he⟩
      | false, h =>
        rw [ih h]
        constructor
        · rintro ⟨r2, hr2, he2⟩
          exact ⟨r2, List.mem_cons_of_mem _ hr2, he2⟩
        · rintro ⟨r2, hr2, he2⟩
          rcases List.mem_cons.mp hr2 with rfl | hr2
          · rw [he] at he2
            cases he2
          · exact ⟨r2, hr2, he2⟩

theorem exist_same_url_spec {us rs : List String} {b : Bool}
    (h : exist_same_url us rs = some b) :
    (b = true ↔ ∃ u ∈ us, ∃ r ∈ rs, isEquivalentStr u r = some true) := by
  induction us with
  | nil =>
    cases h
    simp
  | cons u rest ih =>
    rw [exist_same_url] at h
    rcases he : existInner u rs with _ | eb
    · rw [he] at h; cases h
    · rw [he] at h
      match eb, h with
      | true, h =>
        cases h
        simp only [true_iff]
        exact ⟨u, List.mem_cons_self _ _, (existInner_spec he).mp rfl⟩
      | false, h =>
        rw [ih h]
        constructor
        · rintro ⟨u2, hu2, he2⟩
          exact ⟨u2, List.mem_cons_of_mem _ hu2, he2⟩
        · rintro ⟨u2, hu2, he2⟩
          rcases List.mem_cons.mp hu2 with rfl | hu2
          · rcases he2 with ⟨r2, hr2, he2⟩
            have := (existInner_spec he).mpr ⟨r2, hr2, he2⟩
            cases this
          · exact ⟨u2, hu2, he2⟩


/-! ## The claims -/

/-- Strings with an empty character list are the empty string. -/
theorem string_eq_empty_of_toList_nil {s : String} (h : s.toList = []) : s = "" := by
  cases s with
  | mk data =>
    simp only [String.toList] at h
    simp [h]

/-- C1, counterexample: with `a = []` and `|b| = 6` the claim's
hypothesis `|b| ≥ 6·|a|` holds and the chunked path is taken, but the
code calls `chunk` with chunk size `2·0 = 0`, whose loop never advances:
`lcss_chunked` produces no result at all, so its result length cannot
equal the primitive's result length. -/
theorem c1_counterexample :
    ([] : List Nat).length * 6 ≤ ([0, 0, 0, 0, 0, 0] : List Nat).length ∧
      lcss_chunked ([] : List Nat) [0, 0, 0, 0, 0, 0] = none ∧
      ¬ ∃ r, lcss_chunked ([] : List Nat) [0, 0, 0, 0, 0, 0] = some r ∧
        r.length = (longestCommonSubstring ([] : List Nat) [0, 0, 0, 0, 0, 0]).length := by
  refine ⟨by decide, by decide, ?_⟩
  rintro ⟨r, hr, -⟩
  rw [show lcss_chunked ([] : List Nat) [0, 0, 0, 0, 0, 0] = none from by decide] at hr
  cases hr

/-- C1, witness of the amended claim at `a = [1]`, `b = [2,2,2,2,2,1]`. -/
theorem c1_witness :
    ∃ r, lcss_chunked ([1] : List Nat) [2, 2, 2, 2, 2, 1] = some r ∧
      r.length = (longestCommonSubstring ([1] : List Nat) [2, 2, 2, 2, 2, 1]).length :=
  lcss_chunked_eq_primitive_length (by decide) (by decide)

/-- C2, counterexample: URL equivalence is not symmetric — the
query-containment check is directional, so dropping a query parameter on
the right flips the result while the reverse direction accepts it. -/
theorem c2_counterexample :
    isEquivalentStr "https://x.com/a?p=1" "https://x.com/a" = some false ∧
      isEquivalentStr "https://x.com/a" "https://x.com/a?p=1" = some true :=
  ⟨by decide, by decide⟩

/-- C2 (amended): `equivalent` is symmetric on any two parseable URLs
carrying the same query-parameter mapping (in particular on URLs without
query strings); in general the directional query containment makes the
relation asymmetric. -/
theorem c2_symmetric_on_equal_queries {a b : String} {u1 u2 : Url}
    (ha : parseUrl a = some u1) (hb : parseUrl b = some u2)
    (hq : u1.query = u2.query) :
    isEquivalentStr a b = isEquivalentStr b a := by
  simp only [isEquivalentStr, ha, hb]
  congr 1
  unfold isEquivalent
  by_cases h1 : u1.host = u2.host
  · by_cases h2 : trimRightSlash u1.path = trimRightSlash u2.path
    · rw [if_neg (not_not_intro h1), if_neg (not_not_intro h1.symm),
        if_neg (not_not_intro h2), if_neg (not_not_intro h2.symm), hq]
    · rw [if_neg (not_not_intro h1), if_neg (not_not_intro h1.symm),
        if_pos h2, if_pos (fun hh => h2 hh.symm)]
  · rw [if_pos h1, if_pos (fun hh => h1 hh.symm)]

/-- C2, witness of the amended claim: equal query mappings, different
hosts — both directions agree. -/
theorem c2_witness :
    isEquivalentStr "https://x.com/p?k=1" "https://y.com/p?k=1" =
      isEquivalentStr "https://y.com/p?k=1" "https://x.com/p?k=1" :=
  @c2_symmetric_on_equal_queries "https://x.com/p?k=1" "https://y.com/p?k=1"
    ⟨"x.com", "/p", [("k", "1")]⟩ ⟨"y.com", "/p", [("k", "1")]⟩
    (by decide) (by decide) (by decide)

/-- Encodes the claim's wording "stripping exactly one trailing slash":
removes a single trailing `/` when present. This spec-side definition is
used only to state the C3 counterexample; the source's
`strings.TrimRight(path, "/")` strips every trailing slash. -/
def stripOneTrailingSlash (s : String) : String :=
  if s.toList.getLast? = some (Char.ofNat 47) then String.mk s.toList.dropLast else s

/-- C3, counterexample: the URLs parse to paths `/a//` and `/a`, which
still differ after stripping exactly one trailing slash from each, so
the claim demands `false`; but `TrimRight` strips both slashes and the
code returns `true`. -/
theorem c3_counterexample :
    stripOneTrailingSlash "/a//" ≠ stripOneTrailingSlash "/a" ∧
      parseUrl "https://x.com/a//" = some ⟨"x.com", "/a//", []⟩ ∧
      parseUrl "https://x.com/a" = some ⟨"x.com", "/a", []⟩ ∧
      isEquivalentStr "https://x.com/a//" "https://x.com/a" = some true :=
  ⟨by decide, by decide, by decide, by decide⟩

/-- C3 (amended): for parseable URLs, `equivalent` returns false whenever
the two paths differ after stripping ALL trailing slashes from each. -/
theorem c3_paths_differ_imp_false {a b : String} {u1 u2 : Url}
    (ha : parseUrl a = some u1) (hb : parseUrl b = some u2)
    (hp : trimRightSlash u1.path ≠ trimRightSlash u2.path) :
    isEquivalentStr a b = some false := by
  simp only [isEquivalentStr, ha, hb]
  unfold isEquivalent
  by_cases h1 : u1.host = u2.host
  · rw [if_neg (not_not_intro h1), if_pos hp]
  · rw [if_pos h1]

/-- C3, witness of the amended claim. -/
theorem c3_witness :
    isEquivalentStr "https://x.com/a" "https://x.com/b" = some false :=
  @c3_paths_differ_imp_false "https://x.com/a" "https://x.com/b"
    ⟨"x.com", "/a", []⟩ ⟨"x.com", "/b", []⟩
    (by decide) (by decide) (by decide)

/-- C4: the claim (and the spec) say `lcss_chunked` with an empty side
terminates with an empty result; in the code, empty `a` and non-empty
`b` take the chunked path with chunk size `2·0 = 0`, and the `chunk`
loop (`i += chunkSize`) never advances — the call never returns,
which the embedding records as `none`. -/
theorem c4_empty_side_diverges : lcss_chunked ([] : List Nat) [0] = none := by decide

/-- C5: in the no-URL branch with non-empty query text, whenever the
chunked LCSS over the whitespace-normalized texts yields a result, the
match decision is exactly
`len(common) > 25 || len(common)*100/len(query_text) ≥ 80`, the ratio
dividing by the length of the original, non-normalized query text. -/
theorem c5_text_branch_formula {queryText candText : String} {common : List Char}
    (hq : queryText ≠ "")
    (hc : lcss_chunked (removeWhitespace queryText).toList
      (removeWhitespace candText).toList = some common) :
    textMatch queryText candText =
      .ok (decide (common.length > 25) ||
        decide (common.length * 100 / queryText.length ≥ 80)) := by
  unfold textMatch
  rw [hc]
  show (if common.length > 25 then Except.ok true
    else if queryText.length = 0 then Except.error GoFailure.divByZero
    else Except.ok (decide (common.length * 100 / queryText.length ≥ 80))) = _
  have hlen : queryText.length ≠ 0 := by
    intro h
    apply hq
    apply string_eq_empty_of_toList_nil
    have h2 : queryText.toList.length = 0 := h
    exact List.length_eq_zero.mp h2
  by_cases h25 : common.length > 25
  · rw [if_pos h25]
    simp [h25]
  · rw [if_neg h25, if_neg hlen]
    simp [h25]

/-- C5, witness: the spec's scenario — query `"hello world"` against
candidate `"hello world!!"` matches (common length 10 after
normalization, `10·100/11 = 90 ≥ 80`). -/
theorem c5_witness : textMatch "hello world" "hello world!!" = .ok true :=
  (@c5_text_branch_formula "hello world" "hello world!!" ("helloworld".toList)
    (by decide) (by decide)).trans (by decide)

/-- C6: with hosts equal and slash-stripped paths equal, `equivalent` is
true iff every (name, value) pair of `url_a`'s query appears among the
values listed under the same name in `url_b`'s query; parameters present
only in `url_b` never affect the result. -/
theorem c6_query_superset {a b : String} {u1 u2 : Url}
    (ha : parseUrl a = some u1) (hb : parseUrl b = some u2)
    (hh : u1.host = u2.host)
    (hp : trimRightSlash u1.path = trimRightSlash u2.path) :
    isEquivalentStr a b = some true ↔
      ∀ kv ∈ u1.query, kv.2 ∈ queryValues u2.query kv.1 := by
  simp only [isEquivalentStr, ha, hb, Option.some.injEq]
  unfold isEquivalent
  rw [if_neg (not_not_intro hh), if_neg (not_not_intro hp)]
  unfold queryContained
  rw [List.all_eq_true]
  constructor
  · intro h kv hkv
    have h2 := h kv hkv
    simp only [List.any_eq_true, beq_iff_eq] at h2
    obtain ⟨v2, hv2, heq⟩ := h2
    exact heq ▸ hv2
  · intro h kv hkv
    simp only [List.any_eq_true, beq_iff_eq]
    exact ⟨kv.2, h kv hkv, rfl⟩

/-- C6, witness: the spec's example — trailing slash ignored, superset
query values on the right accepted. -/
theorem c6_witness :
    isEquivalentStr "https://x.com/a?p=1" "https://x.com/a/?p=1&p=2" = some true :=
  (@c6_query_superset "https://x.com/a?p=1" "https://x.com/a/?p=1&p=2"
    ⟨"x.com", "/a", [("p", "1")]⟩ ⟨"x.com", "/a/", [("p", "1"), ("p", "2")]⟩
    (by decide) (by decide) (by decide) (by decide)).mpr (by decide)

/-- C7: whenever `lcss_chunked` produces a non-empty result, that result
occurs verbatim as a contiguous run in both inputs. -/
theorem c7_result_infix_both {α : Type} [DecidableEq α] {a b r : List α}
    (h : lcss_chunked a b = some r) (hr : r ≠ []) :
    r <:+: a ∧ r <:+: b := by
  unfold lcss_chunked at h
  split at h
  · obtain ⟨h1, h2⟩ := infix_of_lcss_chunkedAux h
    exact ⟨h2, h1⟩
  · exact infix_of_lcss_chunkedAux h

/-- C7, witness at `a = [1,2]`, `b = [9,1,2]` (result `[1,2]`). -/
theorem c7_witness :
    ([1, 2] : List Nat) <:+: [1, 2] ∧ ([1, 2] : List Nat) <:+: [9, 1, 2] :=
  c7_result_infix_both (a := [1, 2]) (b := [9, 1, 2]) (by decide) (by decide)

/-- C8: when URLs were found in the request text, the candidate's flag is
true iff some candidate hyperlink is equivalent to some request URL, and
the decision is the same whatever the query or candidate texts are — the
text-overlap computation is never consulted in this branch. -/
theorem c8_url_branch {queryText candText : String}
    {requestUrls candUrls : List String} {bb : Bool}
    (hne : requestUrls ≠ [])
    (hb : exist_same_url candUrls requestUrls = some bb) :
    decideCandidate queryText requestUrls candUrls candText = .ok bb ∧
      (bb = true ↔ ∃ u ∈ candUrls, ∃ r ∈ requestUrls, isEquivalentStr u r = some true) ∧
      ∀ qt ct, decideCandidate qt requestUrls candUrls ct = .ok bb := by
  have hlen : requestUrls.length > 0 := List.length_pos.mpr hne
  refine ⟨?_, exist_same_url_spec hb, ?_⟩
  · unfold decideCandidate
    rw [if_pos hlen, hb]
  · intro qt ct
    unfold decideCandidate
    rw [if_pos hlen, hb]

/-- C8, witness: one request URL, one equivalent candidate hyperlink. -/
theorem c8_witness :
    decideCandidate "q" ["https://x.com/a"] ["https://x.com/a/"] "t" = .ok true ∧
      (true = true ↔ ∃ u ∈ ["https://x.com/a/"], ∃ r ∈ ["https://x.com/a"],
        isEquivalentStr u r = some true) ∧
      ∀ qt ct, decideCandidate qt ["https://x.com/a"] ["https://x.com/a/"] ct = .ok true :=
  c8_url_branch (by decide) (by decide)

/-- C9, counterexample: with empty query text and candidate text `"x"`
the evaluation does not fail with a division-by-zero error — it never
reaches the division, diverging inside `lcss_chunked` (chunk size `0`)
first. -/
theorem c9_counterexample : textMatch "" "x" = Except.error GoFailure.hang := by decide

/-- C9 (amended): with empty query text the text-branch decision always
fails, but the failure mode depends on the candidate: when the
candidate's normalized text is empty the division by zero is reached
(the denominator is the empty query's length); otherwise the computation
diverges inside `lcss_chunked` before the division. -/
theorem c9_empty_query_fails (candText : String) :
    textMatch "" candText =
      if removeWhitespace candText = "" then Except.error GoFailure.divByZero
      else Except.error GoFailure.hang := by
  unfold textMatch
  rw [show (removeWhitespace "").toList = ([] : List Char) from rfl]
  rw [lcss_chunked_nil_left]
  by_cases hc : removeWhitespace candText = ""
  · rw [if_pos hc]
    simp only [hc]
    rfl
  · rw [if_neg hc]
    have hlen : ¬ (removeWhitespace candText).toList.length = 0 := by
      intro h
      exact hc (string_eq_empty_of_toList_nil (List.length_eq_zero.mp h))
    rw [if_neg hlen]

/-- C10: for every positive chunk size, `chunk` returns consecutive
non-overlapping windows in order — their concatenation is `s` — with
every window but the last of length exactly `chunkSize` and, for
non-empty `s`, a final window of length between 1 and `chunkSize`. -/
theorem c10_chunk_spec {α : Type} (s : List α) {k : Nat} (hk : 0 < k) :
    chunk s k = some (chunkPos s k) ∧
      (chunkPos s k).flatten = s ∧
      (∀ c ∈ (chunkPos s k).dropLast, c.length = k) ∧
      (s ≠ [] → ∃ c, (chunkPos s k).getLast? = some c ∧ 1 ≤ c.length ∧ c.length ≤ k) :=
  ⟨chunk_of_pos s hk, chunkPos_flatten s hk, chunkPos_dropLast_length hk,
    fun hs => chunkPos_getLast?_length hk hs⟩

/-- C10, witness at `s = [1,2,3,4,5]`, `chunkSize = 2`. -/
theorem c10_witness :
    chunk ([1, 2, 3, 4, 5] : List Nat) 2 = some (chunkPos [1, 2, 3, 4, 5] 2) ∧
      (chunkPos ([1, 2, 3, 4, 5] : List Nat) 2).flatten = [1, 2, 3, 4, 5] ∧
      (∀ c ∈ (chunkPos ([1, 2, 3, 4, 5] : List Nat) 2).dropLast, c.length = 2) ∧
      (([1, 2, 3, 4, 5] : List Nat) ≠ [] → ∃ c,
        (chunkPos ([1, 2, 3, 4, 5] : List Nat) 2).getLast? = some c ∧
        1 ≤ c.length ∧ c.length ≤ 2) :=
  c10_chunk_spec [1, 2, 3, 4, 5] (by decide)

end ChromeExtServer
